import Mathlib

/-!
Verification of the directory-partitioning planner and the archive integrity
validator of `backup_scheduler.py` (class `BackupManager`).

The filesystem is modelled by the inductive type `FS` below: a directory is a
spine of entries (regular files with an optional byte content, and named
subdirectories), and a directory that cannot be listed (missing or permission
denied, i.e. `os.listdir` raises `OSError`/`PermissionError`) is `FS.unreadable`.
A file whose `content` is `none` models a file that exists (it is returned by
`os.listdir` and passes `os.path.isfile`) but whose `open()` raises
`IOError`/`OSError`.

Python functions are translated one by one:
  * `_show_directory_structure`  → `show_directory_structure` (via the
    fuel-indexed `show1`; the fuel only makes the recursion structural, the
    wrapper passes enough fuel for it never to run out),
  * `show_backup_plan`           → `show_backup_plan`,
  * `calculate_directory_hash`   → `calculate_directory_hash`,
  * `validar_backup_completo`    → `validar_backup_completo`.
The MD5 hexdigest is kept abstract as a parameter `md5 : List Nat → String`
applied to the exact byte stream the Python code feeds into `hashlib.md5`,
and `random.sample(l, 100)` is kept abstract as a parameter
`sample : List (List String) → List (List String)`; theorems that need facts
about it assume exactly the documented contract of `random.sample`.
-/

namespace Backup

/-- Byte strings (file contents) are lists of byte values. -/
abbrev Bytes := List Nat

/-- A relative path is kept as its list of `/`-separated components; the code
manipulates the rendered string, which `joinPath` below produces exactly as
the chain of `os.path.join` calls does. -/
abbrev RelPath := List String

/-- Model of a directory tree.  A directory's listing is the spine of `file`
and `dir` cells ending in `empty`; `unreadable` is a directory whose
`os.listdir` raises.  A `file` with `content = none` is a file whose `open()`
raises mid-hash. -/
inductive FS where
  | unreadable : FS
  | empty : FS
  | file (name : String) (content : Option Bytes) (rest : FS) : FS
  | dir (name : String) (sub : FS) (rest : FS) : FS
deriving DecidableEq

/-- Names of the regular files directly in the directory (in listing order):
the `files = [e for e in entries if os.path.isfile(...)]` list. -/
def fileNames : FS → List String
  | .file n _ r => n :: fileNames r
  | .dir _ _ r => fileNames r
  | _ => []

/-- The `(name, content)` pairs of the regular files directly in the
directory, in listing order; the enumeration `calculate_directory_hash`
starts from before it sorts. -/
def filePairs : FS → List (String × Option Bytes)
  | .file n c r => (n, c) :: filePairs r
  | .dir _ _ r => filePairs r
  | _ => []

/-- The immediate subdirectories, with their subtrees, in listing order:
the `dirs = [e for e in entries if os.path.isdir(...)]` list. -/
def dirList : FS → List (String × FS)
  | .file _ _ r => dirList r
  | .dir n sub r => (n, sub) :: dirList r
  | _ => []

/-- All entry names (files and subdirectories) of one directory, in listing
order; on a real filesystem these are pairwise distinct. -/
def namesOf : FS → List String
  | .file n _ r => n :: namesOf r
  | .dir n _ r => n :: namesOf r
  | _ => []

/-- Total number of regular files in the tree, as
`sum(len(files) for _, _, files in os.walk(path))` computes it: `os.walk`
silently skips directories it cannot list (its default `onerror` ignores the
error), so an unreadable subtree contributes 0 and the sum never raises. -/
def countFiles : FS → Nat
  | .file _ _ r => 1 + countFiles r
  | .dir _ sub r => countFiles sub + countFiles r
  | _ => 0

/-- Result of resolving one name in a directory listing (first match wins;
on a real filesystem names are unique). -/
inductive Resolved where
  | rfile (content : Option Bytes) : Resolved
  | rdir (sub : FS) : Resolved
  | absent : Resolved

/-- Resolve one path component in a directory. -/
def findEntry : FS → String → Resolved
  | .file n c r, x => if x = n then .rfile c else findEntry r x
  | .dir n sub r, x => if x = n then .rdir sub else findEntry r x
  | _, _ => .absent

/-- Model of `os.path.exists` relative to a root tree: the empty path is the
root itself; descending into an unreadable directory returns `False` (as
`os.path.exists` does on a permission error), a file matches only as the last
component, and both files and directories count as existing. -/
def pathExists : FS → RelPath → Bool
  | _, [] => true
  | t, x :: rest =>
    match findEntry t x with
    | .rfile _ => rest.isEmpty
    | .rdir sub => pathExists sub rest
    | .absent => false

/-- Content obtained by `open(root/p, 'rb').read()`: `some c` when `p` names a
readable regular file, `none` when the path is absent, is a directory, lies
under an unreadable directory, or names an unreadable file (all of which make
`open` raise). -/
def fileContent : FS → RelPath → Option Bytes
  | _, [] => none
  | t, x :: rest =>
    match findEntry t x with
    | .rfile c => if rest.isEmpty then c else none
    | .rdir sub => fileContent sub rest
    | .absent => none

/-- The `(relative path, content)` pairs of the regular files directly in the
directory, as one-component paths. -/
def filesOf : FS → List (RelPath × Option Bytes)
  | .file n c r => ([n], c) :: filesOf r
  | .dir _ _ r => filesOf r
  | _ => []

/-- The recursive walks of the immediate subdirectories, in listing order,
with this directory's name prefixed to each relative path. -/
def dirWalks : FS → List (RelPath × Option Bytes)
  | .file _ _ r => dirWalks r
  | .dir n sub r =>
      ((filesOf sub ++ dirWalks sub).map (fun q => (n :: q.1, q.2))) ++ dirWalks r
  | _ => []

/-- Model of the `os.walk` file enumeration used by the validator: all regular
files in the subtree, top-down (a directory's own files before its
subdirectories' files), relative paths from the root.  Unreadable directories
are skipped silently, exactly as `os.walk` with the default `onerror` does. -/
def walkFiles (t : FS) : List (RelPath × Option Bytes) :=
  filesOf t ++ dirWalks t

/-- Boolean test that a list of names has no duplicates. -/
def nodupB : List String → Bool
  | [] => true
  | x :: xs => !(xs.contains x) && nodupB xs

/-- Boolean test that a name contains no path separator, as every name
returned by `os.listdir` does. -/
def noSlashB (s : String) : Bool := !(s.data.contains '/')

/-- Recursive part of filesystem well-formedness: every entry name is free of
path separators, and inside every subdirectory the sibling names are pairwise
distinct.  Both hold on any real filesystem. -/
def wfB : FS → Bool
  | .file n _ r => noSlashB n && wfB r
  | .dir n sub r => noSlashB n && nodupB (namesOf sub) && wfB sub && wfB r
  | _ => true

/-- Filesystem well-formedness including the root's own listing. -/
def fsWF (t : FS) : Bool := nodupB (namesOf t) && wfB t

/-- No directory anywhere in the tree is named `_files` (the reserved basename
the planner spends on the loose-files archive of each emission directory). -/
def noUFilesB : FS → Bool
  | .file _ _ r => noUFilesB r
  | .dir n sub r => !(n == "_files") && noUFilesB sub && noUFilesB r
  | _ => true

/-- Insert into a sorted list, keeping the order given by the Boolean
comparison (insertion sort matches the stable sort used by Python's
`sorted`). -/
def insertLe (le : α → α → Bool) (x : α) : List α → List α
  | [] => [x]
  | y :: ys => if le x y then x :: y :: ys else y :: insertLe le x ys

/-- Sorting by insertion; models Python's `sorted`. -/
def sortLe (le : α → α → Bool) : List α → List α
  | [] => []
  | x :: xs => insertLe le x (sortLe le xs)

/-- Render a component list the way the chain of `os.path.join` calls in the
code renders the accumulated `current_path` string
(`os.path.join(a, b) = a + "/" + b`, with `os.path.join("", b) = b`). -/
def joinPath : List String → String
  | [] => ""
  | [x] => x
  | x :: xs => x ++ "/" ++ joinPath xs

/-- Remote key of a loose-files archive:
`f"{backup_name}/{current_path}/_files.tar.gz" if current_path else f"{backup_name}/_files.tar.gz"`. -/
def looseKey (backupName : String) (p : RelPath) : String :=
  if p.isEmpty then backupName ++ "/_files.tar.gz"
  else backupName ++ "/" ++ joinPath p ++ "/_files.tar.gz"

/-- Remote key of a subdirectory archive: `f"{backup_name}/{dir_path}.tar.gz"`
where `dir_path` is the joined path of the archived directory. -/
def subdirKey (backupName : String) (q : RelPath) : String :=
  backupName ++ "/" ++ joinPath q ++ ".tar.gz"

/-- Normal form shared by every `.tar.gz` remote key the planner emits. -/
def keyOfComps (backupName : String) (comps : List String) : String :=
  backupName ++ "/" ++ joinPath comps ++ ".tar.gz"

/-- Kinds of partition-plan entries (spec §3, PartitionEntry.kind). -/
inductive EntryKind where
  | looseFiles : EntryKind
  | subdirArchive : EntryKind
  | singleFile : EntryKind
  | wholeTree : EntryKind
deriving DecidableEq

/-- One partition-plan entry: what `_show_directory_structure` announces with
one `→ S3` line (kind, source subpath relative to the root, remote key, and
the announced file count). -/
structure PlanEntry where
  kind : EntryKind
  sourceSubpath : RelPath
  remoteKey : String
  fileCount : Nat
deriving DecidableEq

/-- The component list whose `keyOfComps` rendering is the entry's remote key:
a loose-files entry spends the extra component `_files` under its directory. -/
def entryComps (e : PlanEntry) : List String :=
  match e.kind with
  | .looseFiles => e.sourceSubpath ++ ["_files"]
  | _ => e.sourceSubpath

/-- The system directories `_show_directory_structure` filters out of `dirs`. -/
def reservedDirs : List String := ["$RECYCLE.BIN", ".Trash-1000", "System Volume Information"]

/-- The subdirectory list the planner iterates over: the non-reserved
subdirectories in `sorted(dirs)` order (Python sorts the name strings; the
subtree rides along with its name here). -/
def sortedDirs (t : FS) : List (String × FS) :=
  sortLe (fun a b => decide (a.1 ≤ b.1))
    ((dirList t).filter (fun d => !(reservedDirs.contains d.1)))

/-- The one announcement line for all loose files of the current directory:
`f"...Arquivos ({len(files)} arquivos) → {s3_path}"`. -/
def looseEntry (t : FS) (name : String) (p : RelPath) : PlanEntry :=
  ⟨.looseFiles, p, looseKey name p, (fileNames t).length⟩

/-- The announcement line for one subdirectory archive:
`f"...{dir_name}/ ({file_count} arquivos) → {s3_path}"`. -/
def subdirEntry (name : String) (p : RelPath) (d : String × FS) : PlanEntry :=
  ⟨.subdirArchive, p ++ [d.1], subdirKey name (p ++ [d.1]), countFiles d.2⟩

/-- The list of entries announced for one directory at the emission level:
the loose-files line (when there are files) followed by one line per sorted,
non-reserved subdirectory. -/
def emitLevel (t : FS) (name : String) (p : RelPath) : List PlanEntry :=
  (if (fileNames t).isEmpty then [] else [looseEntry t name p])
  ++ (sortedDirs t).map (subdirEntry name p)

/-- Fuel-indexed translation of `_show_directory_structure(base_path,
target_depth, backup_name, current_path, current_depth)`.  The first argument
is structural-recursion fuel only: every recursive call of the Python code
increases `current_depth` and recursion stops before `target_depth`, so the
wrapper's fuel `td` is never exhausted.  `p` is the component list of
`current_path` and `c` is `current_depth`.  An unreadable directory prints an
error line and announces nothing.  The two `→ S3` announcement shapes are the
plan entries; the entry of the look-ahead branch is always announced because
the `sum(... os.walk ...)` file count never raises (see `countFiles`). -/
def show1 : Nat → FS → Nat → String → RelPath → Nat → List PlanEntry
  | _, .unreadable, _, _, _, _ => []
  | 0, _, _, _, _, _ => []
  | fuel + 1, t, td, name, p, c =>
    if c = td then
      (if (fileNames t).isEmpty then [] else [looseEntry t name p])
      ++ (sortedDirs t).map (subdirEntry name p)
    else if c < td then
      (if c = td - 1 ∧ ¬(fileNames t).isEmpty then [looseEntry t name p] else [])
      ++ (sortedDirs t).flatMap (fun d =>
           if c = td - 1 then [subdirEntry name p d]
           else show1 fuel d.2 td name (p ++ [d.1]) (c + 1))
    else []

/-- Wrapper `_show_directory_structure`, with enough fuel for the bounded recursion. -/
def show_directory_structure (t : FS) (targetDepth : Nat) (backupName : String)
    (currentPath : RelPath) (currentDepth : Nat) : List PlanEntry :=
  show1 targetDepth t targetDepth backupName currentPath currentDepth

/-- The root a backup target points at: missing, a regular file, or a
directory tree (with its basename). -/
inductive BackupRoot where
  | missing : BackupRoot
  | file (basename : String) : BackupRoot
  | dir (basename : String) (t : FS) : BackupRoot

/-- Translation of `show_backup_plan`: a missing path only prints an error, a
regular file or `split_depth == 0` produce a single entry, otherwise the
recursive planner runs from depth 1 with empty accumulated path.  The code
prints no file count for the two single-entry shapes; their `fileCount` is
set to 0. -/
def show_backup_plan (root : BackupRoot) (name : String) (split_depth : Nat) :
    List PlanEntry :=
  match root with
  | .missing => []
  | .file b => [⟨.singleFile, [], name ++ "/" ++ b, 0⟩]
  | .dir b t =>
    if split_depth = 0 then [⟨.wholeTree, [], name ++ "/" ++ b ++ ".tar.gz", 0⟩]
    else show_directory_structure t split_depth name [] 1

/-- Stand-in for `filename.encode('utf-8')`: the character stream of the name.
Only its being a function of the name matters to the theorems; the digest
parameter `md5` consumes it. -/
def encodeName (s : String) : Bytes := s.data.map Char.toNat

/-- The byte stream `calculate_directory_hash` feeds into `hashlib.md5`: for
each regular file name in sorted order, the encoded name followed by the
file's bytes; a file whose `open()` raises contributes its name only (the
code calls `hash_md5.update(filename)` before opening, and `continue`s on the
exception). -/
def fileStream (t : FS) : Bytes :=
  (sortLe (fun a b => decide (a ≤ b)) (fileNames t)).flatMap (fun n =>
    encodeName n ++
      (match findEntry t n with
       | .rfile (some c) => c
       | _ => []))

/-- Translation of `calculate_directory_hash`: on a directory that cannot be
listed (including a nonexistent path) the `except` branch leaves the digest
untouched, so the result is the digest of the empty stream. -/
def calculate_directory_hash (md5 : Bytes → String) (t : FS) : String :=
  match t with
  | .unreadable => md5 []
  | t => md5 (fileStream t)

/-- The local `files_to_check` of `validar_backup_completo`:
`random.sample(files_to_check, 100)` when the original set has more than 100
elements, the whole list otherwise. -/
def files_to_check (sample : List RelPath → List RelPath)
    (original_files : List RelPath) : List RelPath :=
  if 100 < original_files.length then sample original_files else original_files

/-- One iteration of the comparison loop of `validar_backup_completo`: `False`
when the extracted path does not exist, when either `open` raises (absent,
directory, or unreadable file: `fileContent` is `none`), or when the two MD5
hexdigests differ. -/
def checkOne (md5 : Bytes → String) (original ext : FS) (p : RelPath) : Bool :=
  if pathExists ext p then
    match fileContent original p, fileContent ext p with
    | some c1, some c2 => md5 c1 == md5 c2
    | _, _ => false
  else false

/-- The Python set `original_files`: the deduplicated walk of the original
tree (a `set` holds each relative path once; its iteration order is
irrelevant to every property proved here). -/
def original_files (original : FS) : List RelPath :=
  ((walkFiles original).map Prod.fst).dedup

/-- The Python set `extracted_files`: the walk of the extraction directory. -/
def extracted_files (ext : FS) : List RelPath :=
  ((walkFiles ext).map Prod.fst).dedup

/-- The set difference `missing_files = original_files - extracted_files`. -/
def missing_files (original ext : FS) : List RelPath :=
  (original_files original).filter (fun p => decide (p ∉ extracted_files ext))

/-- Translation of `validar_backup_completo(tar_file, original_path)`.
`deep_validation` is `config['validation']['deep_validation']`, `tar_exists`
is `os.path.exists(tar_file)`, and `extraction` is the result of
`tar.extractall(temp_dir)`: `none` when opening or extracting raises (the
outer `except` returns `False`), otherwise the extracted tree.
`missing_files` nonempty returns `False`, `extra_files` is only logged.  The
comparison loop returns `False` at its first failure and `True` after the
last file, i.e. the conjunction `List.all`. -/
def validar_backup_completo (md5 : Bytes → String)
    (sample : List RelPath → List RelPath) (deep_validation tar_exists : Bool)
    (extraction : Option FS) (original : FS) : Bool :=
  if deep_validation = false then true
  else if tar_exists = false then false
  else
    match extraction with
    | none => false
    | some ext =>
      if missing_files original ext ≠ [] then false
      else (files_to_check sample (original_files original)).all (checkOne md5 original ext)


/-- Well-formedness of a backup root (trivial for a missing path or a single
file). -/
def rootWF : BackupRoot → Bool
  | .dir _ t => fsWF t
  | _ => true

/-- No directory named `_files` anywhere under the backup root. -/
def rootNoUF : BackupRoot → Bool
  | .dir _ t => noUFilesB t
  | _ => true

/-! ### Concrete instances used by the executable checks -/

/-- Concrete stand-in for the abstract digest parameter (any function works;
witnesses only need one). -/
def md5c : Bytes → String := fun b => String.join (b.map (fun v => toString v ++ ";"))

/-- Concrete stand-in for `random.sample(l, 100)`; it satisfies the contract
of `random.sample` on duplicate-free input: 100 distinct elements of the
list. -/
def samplec : List RelPath → List RelPath := fun l => l.take 100

/-- Root `a/b` with two nested directories and no files. -/
def tC1 : FS := .dir "a" (.dir "b" .empty .empty) .empty

/-- Root with a file and nested directories `a/g`, `a/b/c`. -/
def tC1w : FS := .dir "a" (.file "g" (some []) (.dir "b" (.dir "c" .empty .empty) .empty)) .empty

/-- Root with a loose file next to a directory named `_files`. -/
def tC2 : FS := .file "f.txt" (some []) (.dir "_files" .empty .empty)

/-- The spec scenario: files `x.txt`, `y.txt` and subdirectory `sub/z.txt`. -/
def tC3 : FS :=
  .file "x.txt" (some [1]) (.file "y.txt" (some [2])
    (.dir "sub" (.file "z.txt" (some [3]) .empty) .empty))

/-- A tree with the single file `a` containing byte 7. -/
def tV : FS := .file "a" (some [7]) .empty

/-- Same as `tV` plus an extra file `b`. -/
def tVx : FS := .file "a" (some [7]) (.file "b" (some [8]) .empty)

/-- Two files listed in one order... -/
def tC7a : FS := .file "fa" (some [1]) (.file "fb" (some [2]) .empty)

/-- Continuation of `tC7a`: the same two files listed in the opposite order, with an extra
subdirectory (which the shallow fingerprint ignores). -/
def tC7b : FS := .file "fb" (some [2]) (.file "fa" (some [1]) (.dir "d" .empty .empty))

/-- Same files as `tV` plus an empty directory. -/
def tC10a : FS := .file "a" (some [7]) (.dir "emptydir" .empty .empty)


/-! ### Generic list helpers -/

theorem nodupB_iff : ∀ l : List String, nodupB l = true ↔ l.Nodup := by
  intro l
  induction l with
  | nil => simp [nodupB]
  | cons x xs ih =>
    simp [nodupB, List.nodup_cons, ih, List.elem_iff, and_comm]

theorem noSlashB_iff (s : String) : noSlashB s = true ↔ '/' ∉ s.data := by
  simp [noSlashB, List.elem_iff]

theorem insertLe_perm (le : α → α → Bool) (x : α) :
    ∀ l : List α, (insertLe le x l).Perm (x :: l) := by
  intro l
  induction l with
  | nil => simp [insertLe]
  | cons y ys ih =>
    by_cases h : le x y = true
    · simp [insertLe, h]
    · rw [insertLe, if_neg h]
      exact (ih.cons y).trans (List.Perm.swap x y ys)

theorem sortLe_perm (le : α → α → Bool) :
    ∀ l : List α, (sortLe le l).Perm l := by
  intro l
  induction l with
  | nil => simp [sortLe]
  | cons x xs ih =>
    exact (insertLe_perm le x (sortLe le xs)).trans (ih.cons x)

theorem mem_insertLe (le : α → α → Bool) (x : α) (l : List α) (z : α)
    (h : z ∈ insertLe le x l) : z = x ∨ z ∈ l := by
  have := (insertLe_perm le x l).mem_iff.mp h
  simpa using this

theorem pairwise_insertLe (le : α → α → Bool)
    (htot : ∀ a b, le a b = false → le b a = true)
    (htrans : ∀ a b c, le a b = true → le b c = true → le a c = true)
    (x : α) : ∀ l : List α, l.Pairwise (fun a b => le a b = true) →
    (insertLe le x l).Pairwise (fun a b => le a b = true) := by
  intro l
  induction l with
  | nil => simp [insertLe]
  | cons y ys ih =>
    intro h
    rcases List.pairwise_cons.mp h with ⟨hy, hys⟩
    by_cases hxy : le x y = true
    · rw [insertLe, if_pos hxy]
      refine List.pairwise_cons.mpr ⟨?_, h⟩
      intro z hz
      rcases List.mem_cons.mp hz with rfl | hz
      · exact hxy
      · exact htrans x y z hxy (hy z hz)
    · rw [insertLe, if_neg hxy]
      refine List.pairwise_cons.mpr ⟨?_, ih hys⟩
      intro z hz
      rcases mem_insertLe le x ys z hz with hzx | hz
      · rw [hzx]; exact htot x y (by simpa using hxy)
      · exact hy z hz

theorem pairwise_sortLe (le : α → α → Bool)
    (htot : ∀ a b, le a b = false → le b a = true)
    (htrans : ∀ a b c, le a b = true → le b c = true → le a c = true) :
    ∀ l : List α, (sortLe le l).Pairwise (fun a b => le a b = true) := by
  intro l
  induction l with
  | nil => simp [sortLe]
  | cons x xs ih => exact pairwise_insertLe le htot htrans x (sortLe le xs) ih

theorem flatMap_singleton_map (f : α → β) :
    ∀ l : List α, (l.flatMap fun x => [f x]) = l.map f := by
  intro l
  induction l with
  | nil => rfl
  | cons x xs ih => simp [List.flatMap_cons, ih]

theorem all_congr_mem (f g : α → Bool) :
    ∀ l : List α, (∀ x ∈ l, f x = g x) → l.all f = l.all g := by
  intro l
  induction l with
  | nil => intro _; rfl
  | cons x xs ih =>
    intro h
    simp only [List.all_cons]
    rw [h x (by simp), ih (fun y hy => h y (by simp [hy]))]

theorem lookup_eq_none_of_not_mem [BEq α] [LawfulBEq α] (k : α) :
    ∀ l : List (α × β), k ∉ l.map Prod.fst → l.lookup k = none := by
  intro l
  induction l with
  | nil => intro _; rfl
  | cons x xs ih =>
    intro h
    simp only [List.map_cons, List.mem_cons, not_or] at h
    have hb : (k == x.1) = false := beq_eq_false_iff_ne.mpr h.1
    simp [List.lookup, hb, ih h.2]

theorem lookup_append [BEq α] (k : α) :
    ∀ l1 l2 : List (α × β), (l1 ++ l2).lookup k =
      match l1.lookup k with
      | some v => some v
      | none => l2.lookup k := by
  intro l1 l2
  induction l1 with
  | nil => simp [List.lookup]
  | cons x xs ih =>
    by_cases hb : (k == x.1) = true
    · simp [List.lookup, hb]
    · simp only [List.cons_append, List.lookup, Bool.not_eq_true] at *
      rw [hb]
      simpa [hb] using ih


/-! ### String and path-rendering lemmas -/

theorem strAppend_assoc (a b c : String) : a ++ b ++ c = a ++ (b ++ c) :=
  String.ext (by simp [String.data_append, List.append_assoc])

theorem joinPath_cons (x : String) (xs : List String) (h : xs ≠ []) :
    joinPath (x :: xs) = x ++ "/" ++ joinPath xs := by
  cases xs with
  | nil => exact absurd rfl h
  | cons y ys => rfl

theorem joinPath_cons_data (x : String) (xs : List String) (h : xs ≠ []) :
    (joinPath (x :: xs)).data = x.data ++ '/' :: (joinPath xs).data := by
  rw [joinPath_cons x xs h]
  simp [String.data_append]

theorem joinPath_snoc (z : String) :
    ∀ p : List String, p ≠ [] → joinPath (p ++ [z]) = joinPath p ++ "/" ++ z := by
  intro p
  induction p with
  | nil => intro h; exact absurd rfl h
  | cons x xs ih =>
    intro _
    cases xs with
    | nil => rfl
    | cons y ys =>
      rw [List.cons_append, joinPath_cons x ((y :: ys) ++ [z]) (by simp),
        ih (by simp), joinPath_cons x (y :: ys) (by simp)]
      apply String.ext
      simp [String.data_append, List.append_assoc]

theorem chopSlash :
    ∀ (a b r1 r2 : List Char), '/' ∉ a → '/' ∉ b →
      a ++ '/' :: r1 = b ++ '/' :: r2 → a = b ∧ r1 = r2 := by
  intro a
  induction a with
  | nil =>
    intro b r1 r2 _ hb h
    cases b with
    | nil => simpa using h
    | cons c bs =>
      simp only [List.nil_append, List.cons_append, List.cons.injEq] at h
      have : '/' ∈ c :: bs := by rw [← h.1]; exact List.mem_cons_self '/' bs
      exact (hb this).elim
  | cons c as ih =>
    intro b r1 r2 ha hb h
    cases b with
    | nil =>
      simp only [List.cons_append, List.nil_append, List.cons.injEq] at h
      have : '/' ∈ c :: as := by rw [h.1]; exact List.mem_cons_self '/' as
      exact (ha this).elim
    | cons d bs =>
      simp only [List.cons_append, List.cons.injEq] at h
      have has : '/' ∉ as := fun hm => ha (List.mem_cons_of_mem c hm)
      have hbs : '/' ∉ bs := fun hm => hb (List.mem_cons_of_mem d hm)
      obtain ⟨e1, e2⟩ := ih bs r1 r2 has hbs h.2
      exact ⟨by rw [h.1, e1], e2⟩

theorem joinPath_inj :
    ∀ l1 l2 : List String, (∀ s ∈ l1, noSlashB s = true) →
      (∀ s ∈ l2, noSlashB s = true) → l1.length = l2.length →
      joinPath l1 = joinPath l2 → l1 = l2 := by
  intro l1
  induction l1 with
  | nil =>
    intro l2 _ _ hlen _
    exact (List.length_eq_zero.mp hlen.symm).symm
  | cons x xs ih =>
    intro l2 h1 h2 hlen heq
    cases l2 with
    | nil => simp at hlen
    | cons y ys =>
      simp only [List.length_cons, Nat.succ.injEq] at hlen
      by_cases hxs : xs = []
      · subst hxs
        have hys : ys = [] := List.length_eq_zero.mp (by simpa using hlen.symm)
        subst hys
        simpa [joinPath] using heq
      · have hys : ys ≠ [] := by
          intro h
          rw [h] at hlen
          simp at hlen
          exact hxs hlen
        have hd := congrArg String.data heq
        rw [joinPath_cons_data x xs hxs, joinPath_cons_data y ys hys] at hd
        have hxSlash : '/' ∉ x.data := (noSlashB_iff x).mp (h1 x (by simp))
        have hySlash : '/' ∉ y.data := (noSlashB_iff y).mp (h2 y (by simp))
        obtain ⟨e1, e2⟩ := chopSlash x.data y.data _ _ hxSlash hySlash hd
        have htl : xs = ys :=
          ih ys (fun s hs => h1 s (by simp [hs])) (fun s hs => h2 s (by simp [hs]))
            hlen (String.ext e2)
        rw [String.ext e1, htl]

theorem keyOfComps_inj (backupName : String) (c1 c2 : List String)
    (h1 : ∀ s ∈ c1, noSlashB s = true) (h2 : ∀ s ∈ c2, noSlashB s = true)
    (hlen : c1.length = c2.length)
    (h : keyOfComps backupName c1 = keyOfComps backupName c2) : c1 = c2 := by
  have hd := congrArg String.data h
  simp only [keyOfComps, String.data_append, List.append_assoc] at hd
  have hd2 := List.append_cancel_left hd
  have hd3 := List.append_cancel_left hd2
  have hd4 := List.append_cancel_right hd3
  exact joinPath_inj c1 c2 h1 h2 hlen (String.ext hd4)

theorem looseKey_eq (backupName : String) (p : RelPath) :
    looseKey backupName p = keyOfComps backupName (p ++ ["_files"]) := by
  cases p with
  | nil =>
    apply String.ext
    simp [looseKey, keyOfComps, joinPath, String.data_append]
  | cons x xs =>
    rw [looseKey, if_neg (by simp), keyOfComps,
      joinPath_snoc "_files" (x :: xs) (by simp)]
    apply String.ext
    simp [String.data_append, List.append_assoc]

theorem subdirKey_eq (backupName : String) (q : RelPath) :
    subdirKey backupName q = keyOfComps backupName q := rfl

/-! ### Walk and path-resolution lemmas -/

theorem walkFiles_file (n : String) (c : Option Bytes) (r : FS) :
    walkFiles (.file n c r) = ([n], c) :: walkFiles r := by
  simp [walkFiles, filesOf, dirWalks]

theorem walkFiles_dir (n : String) (sub r : FS) :
    walkFiles (.dir n sub r) =
      filesOf r ++ ((walkFiles sub).map (fun q => (n :: q.1, q.2)) ++ dirWalks r) := by
  simp [walkFiles, filesOf, dirWalks, List.append_assoc]

theorem findEntry_file_ne (n x : String) (c : Option Bytes) (r : FS) (h : x ≠ n) :
    findEntry (.file n c r) x = findEntry r x := by
  simp [findEntry, h]

theorem findEntry_dir_ne (n x : String) (sub r : FS) (h : x ≠ n) :
    findEntry (.dir n sub r) x = findEntry r x := by
  simp [findEntry, h]

theorem pathExists_cons (t : FS) (x : String) (rest : RelPath) :
    pathExists t (x :: rest) =
      match findEntry t x with
      | .rfile _ => rest.isEmpty
      | .rdir sub => pathExists sub rest
      | .absent => false := rfl

theorem fileContent_cons (t : FS) (x : String) (rest : RelPath) :
    fileContent t (x :: rest) =
      match findEntry t x with
      | .rfile c => if rest.isEmpty then c else none
      | .rdir sub => fileContent sub rest
      | .absent => none := rfl

theorem fsWF_file {n : String} {c : Option Bytes} {r : FS}
    (h : fsWF (.file n c r) = true) :
    fsWF r = true ∧ noSlashB n = true ∧ n ∉ namesOf r := by
  simp only [fsWF, wfB, namesOf, nodupB, Bool.and_eq_true, Bool.not_eq_true'] at h
  obtain ⟨⟨hcon, hnd⟩, hns, hwf⟩ := h
  refine ⟨?_, hns, fun hm => ?_⟩
  · simp [fsWF, hnd, hwf]
  · simp [hm] at hcon

theorem fsWF_dir {n : String} {sub r : FS} (h : fsWF (.dir n sub r) = true) :
    fsWF sub = true ∧ fsWF r = true ∧ noSlashB n = true ∧ n ∉ namesOf r := by
  simp only [fsWF, wfB, namesOf, nodupB, Bool.and_eq_true, Bool.not_eq_true'] at h
  obtain ⟨⟨hcon, hnd⟩, ⟨⟨hns, hndsub⟩, hwfsub⟩, hwf⟩ := h
  refine ⟨?_, ?_, hns, fun hm => ?_⟩
  · simp [fsWF, hndsub, hwfsub]
  · simp [fsWF, hnd, hwf]
  · simp [hm] at hcon

theorem walk_path_head :
    ∀ (t : FS) (p : RelPath), p ∈ (walkFiles t).map Prod.fst →
      ∃ h tl, p = h :: tl ∧ h ∈ namesOf t := by
  intro t
  induction t with
  | unreadable => intro p hp; simp [walkFiles, filesOf, dirWalks] at hp
  | empty => intro p hp; simp [walkFiles, filesOf, dirWalks] at hp
  | file n c r ihr =>
    intro p hp
    rw [walkFiles_file] at hp
    rcases List.mem_map.mp hp with ⟨q, hq, rfl⟩
    rcases List.mem_cons.mp hq with rfl | hq
    · exact ⟨n, [], rfl, by simp [namesOf]⟩
    · rcases ihr q.1 (List.mem_map.mpr ⟨q, hq, rfl⟩) with ⟨h, tl, he, hm⟩
      exact ⟨h, tl, he, by simp [namesOf, hm]⟩
  | dir n sub r ihsub ihr =>
    intro p hp
    rw [walkFiles_dir] at hp
    rcases List.mem_map.mp hp with ⟨q, hq, rfl⟩
    rcases List.mem_append.mp hq with hq | hq
    · have : q ∈ walkFiles r := List.mem_append_left _ hq
      rcases ihr q.1 (List.mem_map.mpr ⟨q, this, rfl⟩) with ⟨h, tl, he, hm⟩
      exact ⟨h, tl, he, by simp [namesOf, hm]⟩
    · rcases List.mem_append.mp hq with hq | hq
      · rcases List.mem_map.mp hq with ⟨q', _, rfl⟩
        exact ⟨n, q'.1, rfl, by simp [namesOf]⟩
      · have : q ∈ walkFiles r := List.mem_append_right _ hq
        rcases ihr q.1 (List.mem_map.mpr ⟨q, this, rfl⟩) with ⟨h, tl, he, hm⟩
        exact ⟨h, tl, he, by simp [namesOf, hm]⟩

theorem mem_walk_pathExists :
    ∀ (t : FS), fsWF t = true → ∀ p, p ∈ (walkFiles t).map Prod.fst →
      pathExists t p = true := by
  intro t
  induction t with
  | unreadable => intro _ p hp; simp [walkFiles, filesOf, dirWalks] at hp
  | empty => intro _ p hp; simp [walkFiles, filesOf, dirWalks] at hp
  | file n c r ihr =>
    intro hwf p hp
    obtain ⟨hwfr, _, hnotin⟩ := fsWF_file hwf
    rw [walkFiles_file] at hp
    rcases List.mem_map.mp hp with ⟨q, hq, rfl⟩
    rcases List.mem_cons.mp hq with rfl | hq
    · simp [pathExists, findEntry]
    · have hmem : q.1 ∈ (walkFiles r).map Prod.fst := List.mem_map.mpr ⟨q, hq, rfl⟩
      rcases walk_path_head r q.1 hmem with ⟨h, tl, he, hm⟩
      have hne : h ≠ n := fun hna => hnotin (hna ▸ hm)
      rw [he, pathExists_cons, findEntry_file_ne n h c r hne, ← pathExists_cons]
      exact he ▸ ihr hwfr q.1 hmem
  | dir n sub r ihsub ihr =>
    intro hwf p hp
    obtain ⟨hwfsub, hwfr, _, hnotin⟩ := fsWF_dir hwf
    rw [walkFiles_dir] at hp
    rcases List.mem_map.mp hp with ⟨q, hq, rfl⟩
    have fromR : q ∈ walkFiles r → pathExists (.dir n sub r) q.1 = true := by
      intro hqr
      have hmem : q.1 ∈ (walkFiles r).map Prod.fst := List.mem_map.mpr ⟨q, hqr, rfl⟩
      rcases walk_path_head r q.1 hmem with ⟨h, tl, he, hm⟩
      have hne : h ≠ n := fun hna => hnotin (hna ▸ hm)
      rw [he, pathExists_cons, findEntry_dir_ne n h sub r hne, ← pathExists_cons]
      exact he ▸ ihr hwfr q.1 hmem
    rcases List.mem_append.mp hq with hq | hq
    · exact fromR (List.mem_append_left _ hq)
    · rcases List.mem_append.mp hq with hq | hq
      · rcases List.mem_map.mp hq with ⟨q', hq', rfl⟩
        have : pathExists sub q'.1 = true :=
          ihsub hwfsub q'.1 (List.mem_map.mpr ⟨q', hq', rfl⟩)
        simp [pathExists_cons, findEntry, this]
      · exact fromR (List.mem_append_right _ hq)

theorem fileContent_pathExists :
    ∀ (p : RelPath) (t : FS) (c : Bytes), fileContent t p = some c →
      pathExists t p = true := by
  intro p
  induction p with
  | nil => intro t c h; simp [fileContent] at h
  | cons x rest ih =>
    intro t c h
    rw [fileContent_cons] at h
    rw [pathExists_cons]
    cases hfe : findEntry t x with
    | rfile co =>
      rw [hfe] at h
      cases hre : rest.isEmpty with
      | false => rw [hre] at h; simp at h
      | true => rfl
    | rdir sub =>
      rw [hfe] at h
      exact ih sub c h
    | absent => rw [hfe] at h; simp at h


/-! ### Coherence of `fileContent` with the walk (well-formed trees) -/

theorem lookup_map_cons (n : String) (rest : RelPath) :
    ∀ l : List (RelPath × Option Bytes),
      ((l.map (fun q => (n :: q.1, q.2))).lookup (n :: rest)) = l.lookup rest := by
  intro l
  induction l with
  | nil => rfl
  | cons q qs ih =>
    by_cases h : rest = q.1
    · have hk : ((n :: rest : RelPath) == (n :: q.1)) = true := beq_iff_eq.mpr (by rw [h])
      have hk2 : ((rest : RelPath) == q.1) = true := beq_iff_eq.mpr h
      simp [List.lookup, hk, hk2]
    · have hk : ((n :: rest : RelPath) == (n :: q.1)) = false :=
        beq_eq_false_iff_ne.mpr (by simp [h])
      have hk2 : ((rest : RelPath) == q.1) = false := beq_eq_false_iff_ne.mpr h
      simp [List.lookup, hk, hk2, ih]

theorem lookup_nil_walk (t : FS) : ((walkFiles t).lookup ([] : RelPath)) = none := by
  apply lookup_eq_none_of_not_mem
  intro hm
  rcases walk_path_head t [] hm with ⟨h, tl, habs, _⟩
  exact List.cons_ne_nil h tl habs.symm

theorem lookup_filesOf_none (r : FS) (x : String) (rest : RelPath)
    (h : x ∉ namesOf r) : (filesOf r).lookup (x :: rest) = none := by
  apply lookup_eq_none_of_not_mem
  intro hm
  rcases List.mem_map.mp hm with ⟨q, hq, he⟩
  have hw : (x :: rest) ∈ (walkFiles r).map Prod.fst :=
    List.mem_map.mpr ⟨q, List.mem_append_left _ hq, he⟩
  rcases walk_path_head r _ hw with ⟨h', tl, he', hmem⟩
  have hx : x = h' := (List.cons.injEq x rest h' tl).mp he' |>.1
  exact h (hx ▸ hmem)

theorem lookup_dirWalks_none (r : FS) (x : String) (rest : RelPath)
    (h : x ∉ namesOf r) : (dirWalks r).lookup (x :: rest) = none := by
  apply lookup_eq_none_of_not_mem
  intro hm
  rcases List.mem_map.mp hm with ⟨q, hq, he⟩
  have hw : (x :: rest) ∈ (walkFiles r).map Prod.fst :=
    List.mem_map.mpr ⟨q, List.mem_append_right _ hq, he⟩
  rcases walk_path_head r _ hw with ⟨h', tl, he', hmem⟩
  have hx : x = h' := (List.cons.injEq x rest h' tl).mp he' |>.1
  exact h (hx ▸ hmem)

theorem lookup_mapped_ne (n x : String) (rest : RelPath)
    (l : List (RelPath × Option Bytes)) (h : x ≠ n) :
    ((l.map (fun q => (n :: q.1, q.2))).lookup (x :: rest)) = none := by
  apply lookup_eq_none_of_not_mem
  intro hm
  rcases List.mem_map.mp hm with ⟨q, hq, he⟩
  rcases List.mem_map.mp hq with ⟨q', _, rfl⟩
  have hxn : n = x := ((List.cons.injEq n q'.1 x rest).mp he).1
  exact h hxn.symm

theorem fileContent_eq_walkLookup :
    ∀ (t : FS), fsWF t = true → ∀ p : RelPath,
      fileContent t p = ((walkFiles t).lookup p).join := by
  intro t
  induction t with
  | unreadable =>
    intro _ p
    cases p <;> simp [fileContent, findEntry, walkFiles, filesOf, dirWalks, List.lookup]
  | empty =>
    intro _ p
    cases p <;> simp [fileContent, findEntry, walkFiles, filesOf, dirWalks, List.lookup]
  | file n c r ihr =>
    intro hwf p
    obtain ⟨hwfr, _, hnotin⟩ := fsWF_file hwf
    cases p with
    | nil => rw [lookup_nil_walk]; rfl
    | cons x rest =>
      rw [walkFiles_file]
      by_cases hx : x = n
      · subst hx
        by_cases hr : rest = []
        · subst hr
          simp [fileContent_cons, findEntry, List.lookup]
        · have hfe : findEntry (.file x c r) x = .rfile c := by simp [findEntry]
          have hre : rest.isEmpty = false := by
            cases rest with
            | nil => exact absurd rfl hr
            | cons a as => rfl
          have hnone : (walkFiles r).lookup (x :: rest) = none := by
            rw [walkFiles, lookup_append, lookup_filesOf_none r x rest hnotin,
              lookup_dirWalks_none r x rest hnotin]
          have hkey : ((x :: rest : RelPath) == [x]) = false :=
            beq_eq_false_iff_ne.mpr (by simp [hr])
          rw [fileContent_cons, hfe]
          show (if rest.isEmpty = true then c else none) = _
          rw [hre]
          simp [List.lookup, hkey, hnone]
      · have hkey : ((x :: rest : RelPath) == [n]) = false :=
          beq_eq_false_iff_ne.mpr (by simp [hx])
        rw [fileContent_cons, findEntry_file_ne n x c r hx, ← fileContent_cons,
          ihr hwfr (x :: rest)]
        simp [List.lookup, hkey]
  | dir n sub r ihsub ihr =>
    intro hwf p
    obtain ⟨hwfsub, hwfr, _, hnotin⟩ := fsWF_dir hwf
    cases p with
    | nil => rw [lookup_nil_walk]; rfl
    | cons x rest =>
      rw [walkFiles_dir]
      by_cases hx : x = n
      · subst hx
        have hfe : findEntry (.dir x sub r) x = .rdir sub := by simp [findEntry]
        have h1 := lookup_filesOf_none r x rest hnotin
        have h2 := lookup_dirWalks_none r x rest hnotin
        rw [fileContent_cons, hfe]
        show fileContent sub rest = _
        rw [ihsub hwfsub rest]
        cases hl : (walkFiles sub).lookup rest <;>
          simp [lookup_append, h1, h2, lookup_map_cons, hl]
      · have hmn := lookup_mapped_ne n x rest (walkFiles sub) hx
        rw [fileContent_cons, findEntry_dir_ne n x sub r hx, ← fileContent_cons,
          ihr hwfr (x :: rest), walkFiles]
        cases hl : (filesOf r).lookup (x :: rest) with
        | some v => simp [lookup_append, hl]
        | none => simp [lookup_append, hl, hmn]


/-! ### Structural lemmas about the planner -/

theorem show1_zero (t : FS) (td : Nat) (name : String) (p : RelPath) (c : Nat) :
    show1 0 t td name p c = [] := by
  cases t <;> rfl

theorem show1_unreadable (fuel td : Nat) (name : String) (p : RelPath) (c : Nat) :
    show1 fuel .unreadable td name p c = [] := by
  cases fuel <;> rfl

theorem show1_succ (fuel : Nat) (t : FS) (td : Nat) (name : String) (p : RelPath)
    (c : Nat) (h : t ≠ .unreadable) :
    show1 (fuel + 1) t td name p c =
      (if c = td then
        (if (fileNames t).isEmpty then [] else [looseEntry t name p])
        ++ (sortedDirs t).map (subdirEntry name p)
      else if c < td then
        (if c = td - 1 ∧ ¬(fileNames t).isEmpty then [looseEntry t name p] else [])
        ++ (sortedDirs t).flatMap (fun d =>
             if c = td - 1 then [subdirEntry name p d]
             else show1 fuel d.2 td name (p ++ [d.1]) (c + 1))
      else []) := by
  cases t with
  | unreadable => exact absurd rfl h
  | empty => rfl
  | file n co r => rfl
  | dir n sub r => rfl

theorem dirList_names_sublist : ∀ t : FS, ((dirList t).map Prod.fst).Sublist (namesOf t) := by
  intro t
  induction t with
  | unreadable => simp [dirList, namesOf]
  | empty => simp [dirList, namesOf]
  | file n c r ihr => exact (by simpa [dirList, namesOf] using ihr.cons n)
  | dir n sub r ihsub ihr => exact (by simpa [dirList, namesOf] using ihr.cons₂ n)

theorem fsWF_dirList : ∀ t : FS, fsWF t = true →
    ∀ d ∈ dirList t, noSlashB d.1 = true ∧ fsWF d.2 = true := by
  intro t
  induction t with
  | unreadable => intro _ d hd; simp [dirList] at hd
  | empty => intro _ d hd; simp [dirList] at hd
  | file n c r ihr =>
    intro hwf d hd
    exact ihr (fsWF_file hwf).1 d (by simpa [dirList] using hd)
  | dir n sub r ihsub ihr =>
    intro hwf d hd
    obtain ⟨hwfsub, hwfr, hns, _⟩ := fsWF_dir hwf
    rcases List.mem_cons.mp (by simpa [dirList] using hd) with rfl | hd
    · exact ⟨hns, hwfsub⟩
    · exact ihr hwfr d hd

theorem noUF_dirList : ∀ t : FS, noUFilesB t = true →
    ∀ d ∈ dirList t, d.1 ≠ "_files" ∧ noUFilesB d.2 = true := by
  intro t
  induction t with
  | unreadable => intro _ d hd; simp [dirList] at hd
  | empty => intro _ d hd; simp [dirList] at hd
  | file n c r ihr =>
    intro h d hd
    simp only [noUFilesB] at h
    exact ihr h d (by simpa [dirList] using hd)
  | dir n sub r ihsub ihr =>
    intro h d hd
    simp only [noUFilesB, Bool.and_eq_true, Bool.not_eq_true'] at h
    obtain ⟨⟨hne, hsub⟩, hr⟩ := h
    rcases List.mem_cons.mp (by simpa [dirList] using hd) with rfl | hd
    · exact ⟨beq_eq_false_iff_ne.mp hne, hsub⟩
    · exact ihr hr d hd

theorem mem_sortedDirs {t : FS} {d : String × FS} (h : d ∈ sortedDirs t) :
    d ∈ dirList t := by
  have h2 := (sortLe_perm (fun a b => decide (a.1 ≤ b.1))
    ((dirList t).filter (fun d => !(reservedDirs.contains d.1)))).mem_iff.mp h
  exact (List.mem_filter.mp h2).1

theorem sortedDirs_names_nodup {t : FS} (hwf : fsWF t = true) :
    ((sortedDirs t).map Prod.fst).Nodup := by
  have hnames : (namesOf t).Nodup := by
    have := (Bool.and_eq_true _ _).mp hwf |>.1
    exact (nodupB_iff (namesOf t)).mp this
  have hdl : ((dirList t).map Prod.fst).Nodup :=
    (dirList_names_sublist t).nodup hnames
  have hfil : (((dirList t).filter (fun d => !(reservedDirs.contains d.1))).map
      Prod.fst).Nodup :=
    ((List.filter_sublist _).map Prod.fst).nodup hdl
  exact ((sortLe_perm _ _).map Prod.fst).nodup_iff.mpr hfil


/-! ### Depth characterization of the planner's output -/

theorem show1_depth :
    ∀ (fuel : Nat) (t : FS) (td : Nat) (name : String) (p : RelPath) (c : Nat),
      c < td → ∀ e ∈ show1 fuel t td name p c,
        (e.kind = .looseFiles ∧ e.sourceSubpath.length = p.length + (td - 1 - c)) ∨
        (e.kind = .subdirArchive ∧ e.sourceSubpath.length = p.length + (td - c)) := by
  intro fuel
  induction fuel with
  | zero =>
    intro t td name p c _ e he
    rw [show1_zero] at he
    simp at he
  | succ fuel ih =>
    intro t td name p c hc e he
    by_cases hu : t = .unreadable
    · rw [hu, show1_unreadable] at he; simp at he
    · rw [show1_succ fuel t td name p c hu, if_neg (Nat.ne_of_lt hc), if_pos hc] at he
      rcases List.mem_append.mp he with he | he
      · by_cases hcond : c = td - 1 ∧ ¬(fileNames t).isEmpty
        · rw [if_pos hcond] at he
          simp only [List.mem_singleton] at he
          subst he
          left
          refine ⟨rfl, ?_⟩
          have h0 : td - 1 - c = 0 := by omega
          simp [looseEntry, h0]
        · rw [if_neg hcond] at he; simp at he
      · rcases List.mem_flatMap.mp he with ⟨d, _, he⟩
        by_cases hc1 : c = td - 1
        · rw [if_pos hc1] at he
          simp only [List.mem_singleton] at he
          subst he
          right
          refine ⟨rfl, ?_⟩
          have h1 : td - c = 1 := by omega
          simp [subdirEntry, h1]
        · rw [if_neg hc1] at he
          have hclt : c + 1 < td := by omega
          rcases ih d.2 td name (p ++ [d.1]) (c + 1) hclt e he with ⟨hk, hl⟩ | ⟨hk, hl⟩
          · left
            refine ⟨hk, ?_⟩
            simp only [List.length_append, List.length_cons, List.length_nil] at hl
            omega
          · right
            refine ⟨hk, ?_⟩
            simp only [List.length_append, List.length_cons, List.length_nil] at hl
            omega

/-! ### Key-shape and distinctness invariant of the planner's output -/

theorem emitLevel_inv (t : FS) (name : String) (p : RelPath)
    (hwf : fsWF t = true) (hnu : noUFilesB t = true)
    (hp : ∀ s ∈ p, noSlashB s = true) :
    ((emitLevel t name p).map entryComps).Nodup ∧
    ∀ e ∈ emitLevel t name p,
      (e.kind = .looseFiles ∨ e.kind = .subdirArchive) ∧
      e.remoteKey = keyOfComps name (entryComps e) ∧
      (∃ suffix, entryComps e = p ++ suffix) ∧
      (entryComps e).length = p.length + 1 ∧
      (∀ s ∈ entryComps e, noSlashB s = true) := by
  have hinj : Function.Injective (fun n : String => p ++ [n]) := by
    intro a b hab
    simpa using List.append_cancel_left hab
  have hmapped :
      ((sortedDirs t).map (subdirEntry name p)).map entryComps
        = ((sortedDirs t).map Prod.fst).map (fun n => p ++ [n]) := by
    simp [List.map_map]
    intro a b _
    rfl
  have hmappednd : (((sortedDirs t).map (subdirEntry name p)).map entryComps).Nodup := by
    rw [hmapped]
    exact (sortedDirs_names_nodup hwf).map hinj
  constructor
  · rw [emitLevel, List.map_append]
    by_cases hfe : (fileNames t).isEmpty
    · rw [if_pos hfe]
      simpa using hmappednd
    · rw [if_neg hfe]
      simp only [List.map_cons, List.map_nil, List.singleton_append, List.nodup_cons]
      refine ⟨?_, hmappednd⟩
      intro hmem
      rw [hmapped] at hmem
      rcases List.mem_map.mp hmem with ⟨nm, hnm, he⟩
      rcases List.mem_map.mp hnm with ⟨d, hd, rfl⟩
      have hface : "_files" = d.1 := by simpa [entryComps, looseEntry] using he.symm
      exact (noUF_dirList t hnu d (mem_sortedDirs hd)).1 hface.symm
  · intro e he
    rcases List.mem_append.mp he with he | he
    · by_cases hfe : (fileNames t).isEmpty
      · rw [if_pos hfe] at he; simp at he
      · rw [if_neg hfe] at he
        simp only [List.mem_singleton] at he
        subst he
        refine ⟨Or.inl rfl, ?_, ⟨["_files"], rfl⟩, by simp [entryComps, looseEntry], ?_⟩
        · show looseKey name p = _
          rw [looseKey_eq]
          rfl
        · intro s hs
          rcases (show s ∈ p ∨ s = "_files" by
              simpa [entryComps, looseEntry] using hs) with hs | hs
          · exact hp s hs
          · subst hs
            decide
    · rcases List.mem_map.mp he with ⟨d, hd, rfl⟩
      have hdfacts := fsWF_dirList t hwf d (mem_sortedDirs hd)
      refine ⟨Or.inr rfl, rfl, ⟨[d.1], rfl⟩, by simp [entryComps, subdirEntry], ?_⟩
      intro s hs
      rcases (show s ∈ p ∨ s = d.1 by
          simpa [entryComps, subdirEntry] using hs) with hs | hs
      · exact hp s hs
      · subst hs
        exact hdfacts.1


theorem show1_inv :
    ∀ (fuel : Nat) (t : FS) (td : Nat) (name : String) (p : RelPath) (c : Nat),
      fsWF t = true → noUFilesB t = true → (∀ s ∈ p, noSlashB s = true) →
      1 ≤ c → c ≤ td →
      ((show1 fuel t td name p c).map entryComps).Nodup ∧
      ∀ e ∈ show1 fuel t td name p c,
        (e.kind = .looseFiles ∨ e.kind = .subdirArchive) ∧
        e.remoteKey = keyOfComps name (entryComps e) ∧
        (∃ suffix, entryComps e = p ++ suffix) ∧
        (entryComps e).length = p.length + max (td - c) 1 ∧
        (∀ s ∈ entryComps e, noSlashB s = true) := by
  intro fuel
  induction fuel with
  | zero =>
    intro t td name p c _ _ _ _ _
    rw [show1_zero]
    simp
  | succ fuel ih =>
    intro t td name p c hwf hnu hp hc1 hcle
    by_cases hu : t = .unreadable
    · rw [hu, show1_unreadable]; simp
    · rw [show1_succ fuel t td name p c hu]
      by_cases hctd : c = td
      · rw [if_pos hctd]
        have hmax : max (td - c) 1 = 1 := by omega
        obtain ⟨hnd, hfacts⟩ := emitLevel_inv t name p hwf hnu hp
        refine ⟨hnd, fun e he => ?_⟩
        obtain ⟨hk, hkey, hsuf, hlen, hsl⟩ := hfacts e he
        exact ⟨hk, hkey, hsuf, by rw [hlen, hmax], hsl⟩
      · have hclt : c < td := Nat.lt_of_le_of_ne hcle hctd
        rw [if_neg hctd, if_pos hclt]
        by_cases hc0 : c = td - 1
        · have hbr :
              (if c = td - 1 ∧ ¬(fileNames t).isEmpty then [looseEntry t name p] else [])
                ++ (sortedDirs t).flatMap (fun d =>
                  if c = td - 1 then [subdirEntry name p d]
                  else show1 fuel d.2 td name (p ++ [d.1]) (c + 1))
              = emitLevel t name p := by
            have hfun :
                (fun d : String × FS =>
                  if c = td - 1 then [subdirEntry name p d]
                  else show1 fuel d.2 td name (p ++ [d.1]) (c + 1))
                = fun d => [subdirEntry name p d] := funext fun d => if_pos hc0
            rw [hfun, flatMap_singleton_map, emitLevel]
            by_cases hfe : (fileNames t).isEmpty
            · rw [if_pos hfe, if_neg (by simp [hfe])]
            · rw [if_neg hfe, if_pos ⟨hc0, hfe⟩]
          rw [hbr]
          have hmax : max (td - c) 1 = 1 := by omega
          obtain ⟨hnd, hfacts⟩ := emitLevel_inv t name p hwf hnu hp
          refine ⟨hnd, fun e he => ?_⟩
          obtain ⟨hk, hkey, hsuf, hlen, hsl⟩ := hfacts e he
          exact ⟨hk, hkey, hsuf, by rw [hlen, hmax], hsl⟩
        · have hfun :
              (fun d : String × FS =>
                if c = td - 1 then [subdirEntry name p d]
                else show1 fuel d.2 td name (p ++ [d.1]) (c + 1))
              = fun d => show1 fuel d.2 td name (p ++ [d.1]) (c + 1) :=
            funext fun d => if_neg hc0
          rw [if_neg (by simp [hc0]), List.nil_append, hfun]
          have hcsub : c + 1 ≤ td := by omega
          have hrec : ∀ d ∈ sortedDirs t,
              ((show1 fuel d.2 td name (p ++ [d.1]) (c + 1)).map entryComps).Nodup ∧
              ∀ e ∈ show1 fuel d.2 td name (p ++ [d.1]) (c + 1),
                (e.kind = .looseFiles ∨ e.kind = .subdirArchive) ∧
                e.remoteKey = keyOfComps name (entryComps e) ∧
                (∃ suffix, entryComps e = (p ++ [d.1]) ++ suffix) ∧
                (entryComps e).length = (p ++ [d.1]).length + max (td - (c + 1)) 1 ∧
                (∀ s ∈ entryComps e, noSlashB s = true) := by
            intro d hd
            have hdl := mem_sortedDirs hd
            have hdwf := (fsWF_dirList t hwf d hdl).2
            have hdsl := (fsWF_dirList t hwf d hdl).1
            have hdnu := (noUF_dirList t hnu d hdl).2
            refine ih d.2 td name (p ++ [d.1]) (c + 1) hdwf hdnu ?_ (by omega) hcsub
            intro s hs
            rcases List.mem_append.mp hs with hs | hs
            · exact hp s hs
            · simp only [List.mem_singleton] at hs
              subst hs
              exact hdsl
          constructor
          · rw [List.map_flatMap]
            apply List.nodup_flatMap.mpr
            refine ⟨fun d hd => (hrec d hd).1, ?_⟩
            have hnames := sortedDirs_names_nodup hwf
            have hpw : (sortedDirs t).Pairwise (fun d1 d2 => d1.1 ≠ d2.1) := by
              rw [List.Nodup, List.pairwise_map] at hnames
              exact hnames
            refine List.Pairwise.imp_of_mem ?_ hpw
            intro d1 d2 hm1 hm2 hne
            intro x hx1 hx2
            rcases List.mem_map.mp hx1 with ⟨e1, he1, rfl⟩
            rcases List.mem_map.mp hx2 with ⟨e2, he2, hcc⟩
            obtain ⟨s1, hs1⟩ := ((hrec d1 hm1).2 e1 he1).2.2.1
            obtain ⟨s2, hs2⟩ := ((hrec d2 hm2).2 e2 he2).2.2.1
            have : p ++ ([d1.1] ++ s1) = p ++ ([d2.1] ++ s2) := by
              rw [← List.append_assoc, ← List.append_assoc, ← hs1, ← hs2, hcc]
            have hcons : ([d1.1] ++ s1 : List String) = [d2.1] ++ s2 :=
              List.append_cancel_left this
            simp only [List.singleton_append, List.cons.injEq] at hcons
            exact hne hcons.1
          · intro e he
            rcases List.mem_flatMap.mp he with ⟨d, hd, he⟩
            obtain ⟨hk, hkey, ⟨suf, hsuf⟩, hlen, hsl⟩ := (hrec d hd).2 e he
            refine ⟨hk, hkey, ⟨[d.1] ++ suf, by rw [hsuf, List.append_assoc]⟩, ?_, hsl⟩
            rw [hlen]
            simp only [List.length_append, List.length_cons, List.length_nil]
            omega


/-! ### Fingerprint lemmas -/

theorem fileNames_eq_filePairs_map : ∀ t : FS, fileNames t = (filePairs t).map Prod.fst := by
  intro t
  induction t with
  | unreadable => rfl
  | empty => rfl
  | file n c r ihr => simp [fileNames, filePairs, ihr]
  | dir n sub r ihsub ihr => simp [fileNames, filePairs, ihr]

theorem filePairs_names_sublist : ∀ t : FS,
    ((filePairs t).map Prod.fst).Sublist (namesOf t) := by
  intro t
  induction t with
  | unreadable => simp [filePairs, namesOf]
  | empty => simp [filePairs, namesOf]
  | file n c r ihr => exact (by simpa [filePairs, namesOf] using ihr.cons₂ n)
  | dir n sub r ihsub ihr => exact (by simpa [filePairs, namesOf] using ihr.cons n)

theorem nodupB_cons {x : String} {xs : List String} (h : nodupB (x :: xs) = true) :
    x ∉ xs ∧ nodupB xs = true := by
  have := (nodupB_iff (x :: xs)).mp h
  rcases List.nodup_cons.mp this with ⟨hx, hxs⟩
  exact ⟨hx, (nodupB_iff xs).mpr hxs⟩

theorem findEntry_of_filePair :
    ∀ t : FS, nodupB (namesOf t) = true → ∀ (n : String) (co : Option Bytes),
      (n, co) ∈ filePairs t → findEntry t n = .rfile co := by
  intro t
  induction t with
  | unreadable => intro _ n co h; simp [filePairs] at h
  | empty => intro _ n co h; simp [filePairs] at h
  | file m c r ihr =>
    intro hnd n co h
    obtain ⟨hm, hndr⟩ := nodupB_cons (by simpa [namesOf] using hnd)
    rcases (show (n = m ∧ co = c) ∨ (n, co) ∈ filePairs r by
        simpa [filePairs] using h) with ⟨rfl, rfl⟩ | he
    · simp [findEntry]
    · have hn : n ∈ namesOf r :=
        (filePairs_names_sublist r).subset (List.mem_map.mpr ⟨(n, co), he, rfl⟩)
      have hne : n ≠ m := fun hnm => hm (hnm ▸ hn)
      rw [findEntry_file_ne m n c r hne]
      exact ihr hndr n co he
  | dir m sub r ihsub ihr =>
    intro hnd n co h
    obtain ⟨hm, hndr⟩ := nodupB_cons (by simpa [namesOf] using hnd)
    have he : (n, co) ∈ filePairs r := by simpa [filePairs] using h
    have hn : n ∈ namesOf r :=
      (filePairs_names_sublist r).subset (List.mem_map.mpr ⟨(n, co), he, rfl⟩)
    have hne : n ≠ m := fun hnm => hm (hnm ▸ hn)
    rw [findEntry_dir_ne m n sub r hne]
    exact ihr hndr n co he

theorem flatMap_congr_mem (f g : α → List β) :
    ∀ l : List α, (∀ x ∈ l, f x = g x) → l.flatMap f = l.flatMap g := by
  intro l
  induction l with
  | nil => intro _; rfl
  | cons x xs ih =>
    intro h
    simp only [List.flatMap_cons]
    rw [h x (by simp), ih (fun y hy => h y (by simp [hy]))]

theorem sortLe_strings_eq (l1 l2 : List String) (h : l1.Perm l2) :
    sortLe (fun a b => decide (a ≤ b)) l1 = sortLe (fun a b => decide (a ≤ b)) l2 := by
  have htot : ∀ a b : String, decide (a ≤ b) = false → decide (b ≤ a) = true := by
    intro a b hab
    exact decide_eq_true ((le_total a b).resolve_left (of_decide_eq_false hab))
  have htrans : ∀ a b c : String,
      decide (a ≤ b) = true → decide (b ≤ c) = true → decide (a ≤ c) = true := by
    intro a b c h1 h2
    exact decide_eq_true (le_trans (of_decide_eq_true h1) (of_decide_eq_true h2))
  haveI : IsAntisymm String (fun a b => a ≤ b) := ⟨fun a b => le_antisymm⟩
  apply List.eq_of_perm_of_sorted (r := fun a b : String => a ≤ b)
  · exact (sortLe_perm _ l1).trans (h.trans (sortLe_perm _ l2).symm)
  · exact (pairwise_sortLe _ htot htrans l1).imp fun hab => of_decide_eq_true hab
  · exact (pairwise_sortLe _ htot htrans l2).imp fun hab => of_decide_eq_true hab

theorem calculate_eq_stream (md5 : Bytes → String) (t : FS) :
    calculate_directory_hash md5 t = md5 (fileStream t) := by
  cases t <;> rfl


/-! ### Validator unfolding helpers -/

theorem validar_main_eq (md5 : Bytes → String) (sample : List RelPath → List RelPath)
    (ext original : FS) :
    validar_backup_completo md5 sample true true (some ext) original =
      if missing_files original ext ≠ [] then false
      else (files_to_check sample (original_files original)).all
        (checkOne md5 original ext) := rfl

theorem mem_files_to_check (sample : List RelPath → List RelPath)
    (original : FS) (hs : ∀ l : List RelPath, l.Nodup → ∀ p ∈ sample l, p ∈ l) :
    ∀ p ∈ files_to_check sample (original_files original), p ∈ original_files original := by
  intro p hp
  rw [files_to_check] at hp
  by_cases hlen : 100 < (original_files original).length
  · rw [if_pos hlen] at hp
    exact hs (original_files original) (List.nodup_dedup _) p hp
  · rw [if_neg hlen] at hp
    exact hp

theorem filter_loose_map_subdir (name : String) (p : RelPath) :
    ∀ l : List (String × FS),
      (l.map (subdirEntry name p)).filter (fun e => decide (e.kind = .looseFiles)) = [] := by
  intro l
  induction l with
  | nil => rfl
  | cons d ds ih => simpa [subdirEntry] using ih

theorem filter_subdir_map_subdir (name : String) (p : RelPath) :
    ∀ l : List (String × FS),
      (l.map (subdirEntry name p)).filter (fun e => decide (e.kind = .subdirArchive))
        = l.map (subdirEntry name p) := by
  intro l
  induction l with
  | nil => rfl
  | cons d ds ih => simpa [subdirEntry] using ih


/-! ### Claim theorems -/

/-- C1 counterexample: for the root `tC1` (subtree `a/b`) with splitDepth 2
the planner announces the SubdirectoryArchive unit `n/a.tar.gz` for the
depth-1 directory `a` and nothing at depth 2, refuting the claim that at
every depth below splitDepth it only recurses (emitting no
SubdirectoryArchive) so that subdirectory units appear exactly at depth
splitDepth. -/
theorem c1_subdir_entry_below_split_depth :
    (show_directory_structure tC1 2 "n" [] 1).map
        (fun e => (e.kind, e.sourceSubpath, e.remoteKey))
      = [(.subdirArchive, ["a"], "n/a.tar.gz")] ∧
    ¬ (∀ e ∈ show_directory_structure tC1 2 "n" [] 1,
        e.kind = .subdirArchive → e.sourceSubpath.length = 2) := by
  decide

/-- C1 amended: for splitDepth ≥ 2 the planner recurses (in sorted order,
carrying the accumulated relative path, emitting nothing) only at depths
strictly below splitDepth − 1; the loose-files entry of a directory at
depth splitDepth − 1 and one SubdirectoryArchive entry per subdirectory at
depth splitDepth − 1 are the only entries, so subdirectory archive units
are emitted exactly at depth splitDepth − 1 and depth splitDepth is never
reached. -/
theorem c1_amended_emission_at_depth_pred (t : FS) (td : Nat) (name : String)
    (htd : 2 ≤ td) :
    (∀ e ∈ show_directory_structure t td name [] 1,
       (e.kind = .looseFiles ∧ e.sourceSubpath.length = td - 2) ∨
       (e.kind = .subdirArchive ∧ e.sourceSubpath.length = td - 1)) ∧
    (∀ (t' : FS) (p : RelPath) (c fuel : Nat), c < td - 1 → t' ≠ .unreadable →
       show1 (fuel + 1) t' td name p c
         = (sortedDirs t').flatMap (fun d => show1 fuel d.2 td name (p ++ [d.1]) (c + 1))) := by
  constructor
  · intro e he
    have h := show1_depth td t td name [] 1 (by omega) e he
    rcases h with ⟨hk, hl⟩ | ⟨hk, hl⟩
    · left
      refine ⟨hk, ?_⟩
      rw [hl]
      simp only [List.length_nil]
      omega
    · right
      refine ⟨hk, ?_⟩
      rw [hl]
      simp only [List.length_nil]
      omega
  · intro t' p c fuel hc hu
    rw [show1_succ fuel t' td name p c hu]
    have hctd : c ≠ td := by omega
    have hclt : c < td := by omega
    have hc1 : c ≠ td - 1 := by omega
    rw [if_neg hctd, if_pos hclt, if_neg (by simp [hc1]), List.nil_append]
    have hfun :
        (fun d : String × FS =>
          if c = td - 1 then [subdirEntry name p d]
          else show1 fuel d.2 td name (p ++ [d.1]) (c + 1))
        = fun d => show1 fuel d.2 td name (p ++ [d.1]) (c + 1) :=
      funext fun d => if_neg hc1
    rw [hfun]

/-- C1 amended, applied at splitDepth 3 to the concrete root `tC1w`: every
announced entry is a loose-files entry at depth 1 or a subdirectory archive
at depth 2. -/
theorem c1_amended_emission_witness :
    (show_directory_structure tC1w 3 "n" [] 1).all (fun e =>
        (decide (e.kind = .looseFiles) && decide (e.sourceSubpath.length = 1))
        || (decide (e.kind = .subdirArchive) && decide (e.sourceSubpath.length = 2)))
      = true := by
  have h := (c1_amended_emission_at_depth_pred tC1w 3 "n" (by decide)).1
  apply List.all_eq_true.mpr
  intro e he
  rcases h e he with ⟨h1, h2⟩ | ⟨h1, h2⟩ <;> simp [h1, h2]

/-- C2 counterexample: a root whose emission level holds a loose file next
to a subdirectory named `_files` produces two identical remote keys in one
plan, refuting pairwise distinctness exactly through the predicted
loose-key/subdirectory-key collision. -/
theorem c2_duplicate_remote_keys_files_dir :
    (show_backup_plan (.dir "data" tC2) "n" 1).map PlanEntry.remoteKey
      = ["n/_files.tar.gz", "n/_files.tar.gz"] ∧
    ¬ ((show_backup_plan (.dir "data" tC2) "n" 1).map PlanEntry.remoteKey).Nodup := by
  decide

/-- C2 amended: for every root and split depth, the remote keys of the plan
are pairwise distinct provided no directory of the tree is named `_files`
(plus filesystem well-formedness: sibling names distinct and free of path
separators), which is exactly the collision exhibited by the
counterexample. -/
theorem c2_amended_remote_keys_nodup (root : BackupRoot) (name : String) (td : Nat)
    (hwf : rootWF root = true) (hnu : rootNoUF root = true) :
    ((show_backup_plan root name td).map PlanEntry.remoteKey).Nodup := by
  cases root with
  | missing => simp [show_backup_plan]
  | file b => simp [show_backup_plan]
  | dir b t =>
    rw [show_backup_plan]
    by_cases h0 : td = 0
    · rw [if_pos h0]
      simp
    · rw [if_neg h0, show_directory_structure]
      obtain ⟨hnd, hfacts⟩ := show1_inv td t td name [] 1 hwf hnu
        (by intro s hs; simp at hs) (by omega) (by omega)
      have hkeys : (show1 td t td name [] 1).map PlanEntry.remoteKey
          = ((show1 td t td name [] 1).map entryComps).map (keyOfComps name) := by
        rw [List.map_map]
        apply List.map_congr_left
        intro e he
        exact (hfacts e he).2.1
      rw [hkeys]
      apply List.Nodup.map_on ?_ hnd
      intro x hx y hy hxy
      rcases List.mem_map.mp hx with ⟨e1, he1, rfl⟩
      rcases List.mem_map.mp hy with ⟨e2, he2, rfl⟩
      obtain ⟨_, _, _, hl1, hsl1⟩ := hfacts e1 he1
      obtain ⟨_, _, _, hl2, hsl2⟩ := hfacts e2 he2
      exact keyOfComps_inj name _ _ hsl1 hsl2 (by rw [hl1, hl2]) hxy

/-- C2 amended, applied to the concrete scenario root: its two remote keys
are distinct. -/
theorem c2_amended_remote_keys_witness :
    rootWF (.dir "data" tC3) = true ∧ rootNoUF (.dir "data" tC3) = true ∧
    ((show_backup_plan (.dir "data" tC3) "name" 1).map PlanEntry.remoteKey).Nodup :=
  ⟨by decide, by decide,
    c2_amended_remote_keys_nodup (.dir "data" tC3) "name" 1 (by decide) (by decide)⟩


/-- C3: a directory processed at depth exactly splitDepth yields the
emission-level list: at most one LooseFilesArchive entry (none exactly when
the directory holds no files) whose key is `{name}/{relpath}/_files.tar.gz`
(`{name}/_files.tar.gz` at the root) and which covers the whole file set in
one entry, one SubdirectoryArchive entry per sorted non-reserved
subdirectory with key `{name}/{relpath}/{dirname}.tar.gz`, and no recursion
past this depth: no entry reaches more than one component below the
directory. -/
theorem c3_split_level_emission (t : FS) (td : Nat) (name : String) (p : RelPath)
    (htd : 1 ≤ td) (hu : t ≠ .unreadable) :
    show_directory_structure t td name p td = emitLevel t name p ∧
    ((emitLevel t name p).filter (fun e => decide (e.kind = .looseFiles))).length
        = (if (fileNames t).isEmpty then 0 else 1) ∧
    (∀ e ∈ emitLevel t name p, e.kind = .looseFiles →
        e.sourceSubpath = p ∧ e.remoteKey = looseKey name p ∧
        e.fileCount = (fileNames t).length) ∧
    ((emitLevel t name p).filter (fun e => decide (e.kind = .subdirArchive))).map
        PlanEntry.sourceSubpath = (sortedDirs t).map (fun d => p ++ [d.1]) ∧
    (∀ e ∈ emitLevel t name p, e.kind = .subdirArchive →
        e.remoteKey = subdirKey name e.sourceSubpath) ∧
    (∀ e ∈ emitLevel t name p, e.sourceSubpath.length ≤ p.length + 1) := by
  refine ⟨?_, ?_, ?_, ?_, ?_, ?_⟩
  · cases td with
    | zero => exact absurd htd (by simp)
    | succ k =>
      rw [show_directory_structure, show1_succ k t (k + 1) name p (k + 1) hu, if_pos rfl]
      rfl
  · rw [emitLevel, List.filter_append, filter_loose_map_subdir, List.append_nil]
    by_cases hfe : (fileNames t).isEmpty
    · rw [if_pos hfe, if_pos hfe]
      rfl
    · rw [if_neg hfe, if_neg hfe]
      simp [looseEntry]
  · intro e he hk
    rcases List.mem_append.mp he with he | he
    · by_cases hfe : (fileNames t).isEmpty
      · rw [if_pos hfe] at he; simp at he
      · rw [if_neg hfe] at he
        simp only [List.mem_singleton] at he
        subst he
        exact ⟨rfl, rfl, rfl⟩
    · rcases List.mem_map.mp he with ⟨d, _, rfl⟩
      simp [subdirEntry] at hk
  · rw [emitLevel, List.filter_append, filter_subdir_map_subdir]
    have hl : ((if (fileNames t).isEmpty then [] else [looseEntry t name p]).filter
        (fun e => decide (e.kind = .subdirArchive))) = [] := by
      by_cases hfe : (fileNames t).isEmpty
      · rw [if_pos hfe]; rfl
      · rw [if_neg hfe]; simp [looseEntry]
    rw [hl, List.nil_append, List.map_map]
    rfl
  · intro e he hk
    rcases List.mem_append.mp he with he | he
    · by_cases hfe : (fileNames t).isEmpty
      · rw [if_pos hfe] at he; simp at he
      · rw [if_neg hfe] at he
        simp only [List.mem_singleton] at he
        subst he
        simp [looseEntry] at hk
    · rcases List.mem_map.mp he with ⟨d, _, rfl⟩
      rfl
  · intro e he
    rcases List.mem_append.mp he with he | he
    · by_cases hfe : (fileNames t).isEmpty
      · rw [if_pos hfe] at he; simp at he
      · rw [if_neg hfe] at he
        simp only [List.mem_singleton] at he
        subst he
        simp [looseEntry]
    · rcases List.mem_map.mp he with ⟨d, _, rfl⟩
      simp [subdirEntry]

/-- C3, applied to the spec scenario (`x.txt`, `y.txt`, `sub/z.txt`,
splitDepth 1): the plan is one LooseFilesArchive covering the two files at
`name/_files.tar.gz` plus one SubdirectoryArchive for `sub` at
`name/sub.tar.gz`. -/
theorem c3_split_level_emission_witness :
    show_directory_structure tC3 1 "name" [] 1 = emitLevel tC3 "name" [] ∧
    (emitLevel tC3 "name" []).map (fun e => (e.kind, e.remoteKey, e.fileCount))
      = [(.looseFiles, "name/_files.tar.gz", 2), (.subdirArchive, "name/sub.tar.gz", 1)] :=
  ⟨(c3_split_level_emission tC3 1 "name" [] (by decide) (by decide)).1, by decide⟩


/-- C4: with deep validation on, an existing archive and a successful
extraction, (a) any original path absent from the extraction lands in
`missing_files` and forces the `False` verdict, while (b) when every
original path is present in the extraction and every original file's
content hash matches the extracted one, the verdict is `True` no matter
what extra files the extraction contains: extras alone never cause
failure.  The `sample` hypothesis is the subset half of the `random.sample`
contract. -/
theorem c4_missing_fails_extras_do_not (md5 : Bytes → String)
    (sample : List RelPath → List RelPath) (original ext : FS)
    (hs : ∀ l : List RelPath, l.Nodup → ∀ p ∈ sample l, p ∈ l) :
    (∀ p ∈ original_files original, p ∉ extracted_files ext →
        p ∈ missing_files original ext ∧
        validar_backup_completo md5 sample true true (some ext) original = false) ∧
    ((∀ p ∈ original_files original, p ∈ extracted_files ext) →
     (∀ p ∈ original_files original, ∃ c1 c2,
        fileContent original p = some c1 ∧ fileContent ext p = some c2 ∧
        md5 c1 = md5 c2) →
     validar_backup_completo md5 sample true true (some ext) original = true) := by
  constructor
  · intro p hp hnp
    have hmem : p ∈ missing_files original ext :=
      List.mem_filter.mpr ⟨hp, decide_eq_true hnp⟩
    refine ⟨hmem, ?_⟩
    rw [validar_main_eq, if_pos (List.ne_nil_of_mem hmem)]
  · intro hsub hcont
    have hm : missing_files original ext = [] := by
      by_contra hne
      rcases List.exists_mem_of_ne_nil _ hne with ⟨p, hp⟩
      rcases List.mem_filter.mp hp with ⟨hpo, hpd⟩
      exact (of_decide_eq_true hpd) (hsub p hpo)
    rw [validar_main_eq, if_neg (by simp [hm])]
    apply List.all_eq_true.mpr
    intro p hpf
    have hpo : p ∈ original_files original := mem_files_to_check sample original hs p hpf
    obtain ⟨c1, c2, h1, h2, heq⟩ := hcont p hpo
    have hpe : pathExists ext p = true := fileContent_pathExists p ext c2 h2
    simp [checkOne, hpe, h1, h2, heq]

/-- C4, applied concretely: an extraction with an extra file `b` still
verifies against the one-file original, and an empty extraction fails
against it. -/
theorem c4_missing_fails_extras_do_not_witness :
    validar_backup_completo md5c samplec true true (some tVx) tV = true ∧
    validar_backup_completo md5c samplec true true (some FS.empty) tV = false := by
  have hc : ∀ l : List RelPath, l.Nodup → ∀ p ∈ samplec l, p ∈ l :=
    fun l _ p hp => (List.take_sublist 100 l).subset hp
  constructor
  · apply (c4_missing_fails_extras_do_not md5c samplec tV tVx hc).2
    · decide
    · intro p hp
      have hof : original_files tV = [["a"]] := by decide
      rw [hof] at hp
      simp only [List.mem_singleton] at hp
      subst hp
      exact ⟨[7], [7], rfl, rfl, rfl⟩
  · exact ((c4_missing_fails_extras_do_not md5c samplec tV FS.empty hc).1
      ["a"] (by decide) (by decide)).2

/-- C5: with deep validation on, an existing archive and a successful
extraction, and a `sample` satisfying the `random.sample(l, 100)` contract
(on duplicate-free input: 100 distinct elements of the input), the
validator's comparison set is exactly 100 distinct original paths when the
original set exceeds 100, and the entire original set otherwise; and a
content-hash failure at any compared path forces the `False` verdict. -/
theorem c5_sampling_bounds_and_mismatch (md5 : Bytes → String)
    (sample : List RelPath → List RelPath) (original ext : FS)
    (hs : ∀ l : List RelPath, l.Nodup → 100 < l.length →
      (sample l).length = 100 ∧ (sample l).Nodup ∧ ∀ p ∈ sample l, p ∈ l) :
    (100 < (original_files original).length →
        (files_to_check sample (original_files original)).length = 100 ∧
        (files_to_check sample (original_files original)).Nodup ∧
        ∀ p ∈ files_to_check sample (original_files original),
          p ∈ original_files original) ∧
    ((original_files original).length ≤ 100 →
        files_to_check sample (original_files original) = original_files original ∧
        (original_files original).Nodup) ∧
    (∀ p ∈ files_to_check sample (original_files original), ∀ c1 c2 : Bytes,
        fileContent original p = some c1 → fileContent ext p = some c2 →
        md5 c1 ≠ md5 c2 →
        validar_backup_completo md5 sample true true (some ext) original = false) := by
  refine ⟨?_, ?_, ?_⟩
  · intro hlen
    obtain ⟨h1, h2, h3⟩ := hs (original_files original) (List.nodup_dedup _) hlen
    rw [files_to_check, if_pos hlen]
    exact ⟨h1, h2, h3⟩
  · intro hlen
    rw [files_to_check, if_neg (by omega)]
    exact ⟨rfl, List.nodup_dedup _⟩
  · intro p hp c1 c2 h1 h2 hne
    have hfail : checkOne md5 original ext p = false := by
      cases hpe : pathExists ext p with
      | false => simp [checkOne, hpe]
      | true => simp [checkOne, hpe, h1, h2, hne]
    rw [validar_main_eq]
    by_cases hm : missing_files original ext ≠ []
    · rw [if_pos hm]
    · rw [if_neg hm]
      apply Bool.eq_false_iff.mpr
      intro hall
      have := List.all_eq_true.mp hall p hp
      rw [hfail] at this
      exact Bool.false_ne_true this

/-- C5, applied concretely: the one-file original is below the sampling
limit, so every original path is compared. -/
theorem c5_sampling_bounds_and_mismatch_witness :
    files_to_check samplec (original_files tV) = original_files tV ∧
    (original_files tV).Nodup := by
  have hc : ∀ l : List RelPath, l.Nodup → 100 < l.length →
      (samplec l).length = 100 ∧ (samplec l).Nodup ∧ ∀ p ∈ samplec l, p ∈ l := by
    intro l hnd hlen
    refine ⟨?_, (List.take_sublist 100 l).nodup hnd,
      fun p hp => (List.take_sublist 100 l).subset hp⟩
    rw [samplec]
    simp only [List.length_take]
    omega
  exact (c5_sampling_bounds_and_mismatch md5c samplec tV tV hc).2.1 (by decide)

/-- C6 amended: with deep validation disabled the validator returns
immediately, before looking at the archive or the source tree (the result
does not depend on the archive's existence, the extraction, or the
original), but the value it returns is the same boolean `True` that a fully
verified run returns: the code has no verdict distinct from `Verified` for
the skipped case. -/
theorem c6_amended_disabled_returns_true (md5 : Bytes → String)
    (sample : List RelPath → List RelPath) (tar_exists : Bool)
    (extraction : Option FS) (original : FS) :
    validar_backup_completo md5 sample false tar_exists extraction original = true := rfl

/-- C6 counterexample: a skipped run (deep validation off, archive missing,
extraction never attempted) returns the very same value `true` as a fully
verified run on a perfect backup, so `Skipped` is not a verdict distinct
from `Verified`, refuting the distinctness part of the claim. -/
theorem c6_skipped_equals_verified_value :
    validar_backup_completo md5c samplec false false none tV
      = validar_backup_completo md5c samplec true true (some tV) tV ∧
    validar_backup_completo md5c samplec true true (some tV) tV = true := by
  decide


/-- C7: the shallow fingerprint is invariant under re-ordering of the
filesystem enumeration: any two directory listings carrying the same
multiset of (file name, byte content) pairs — in any order, and regardless
of their subdirectories — produce the same digest, because the listing is
sorted by name before hashing.  Sibling names are assumed duplicate-free,
as on a real filesystem. -/
theorem c7_shallow_fingerprint_order_invariant (md5 : Bytes → String) (t1 t2 : FS)
    (hperm : (filePairs t1).Perm (filePairs t2))
    (h1 : nodupB (namesOf t1) = true) (h2 : nodupB (namesOf t2) = true) :
    calculate_directory_hash md5 t1 = calculate_directory_hash md5 t2 := by
  rw [calculate_eq_stream, calculate_eq_stream]
  have hnames : (fileNames t1).Perm (fileNames t2) := by
    rw [fileNames_eq_filePairs_map, fileNames_eq_filePairs_map]
    exact hperm.map Prod.fst
  have hstream : fileStream t1 = fileStream t2 := by
    rw [fileStream, fileStream, sortLe_strings_eq (fileNames t1) (fileNames t2) hnames]
    apply flatMap_congr_mem
    intro n hn
    have hn2 : n ∈ fileNames t2 := (sortLe_perm _ _).mem_iff.mp hn
    have hn1 : n ∈ fileNames t1 := hnames.mem_iff.mpr hn2
    rcases List.mem_map.mp
      (show n ∈ (filePairs t1).map Prod.fst from fileNames_eq_filePairs_map t1 ▸ hn1)
      with ⟨q, hq, rfl⟩
    have hf1 : findEntry t1 q.1 = .rfile q.2 :=
      findEntry_of_filePair t1 h1 q.1 q.2 (by simpa using hq)
    have hf2 : findEntry t2 q.1 = .rfile q.2 :=
      findEntry_of_filePair t2 h2 q.1 q.2 (by simpa using hperm.mem_iff.mp hq)
    rw [hf1, hf2]
  rw [hstream]

/-- C7, applied concretely: the two listings `fa, fb` and `fb, fa` (the
second with an extra subdirectory) hash identically. -/
theorem c7_shallow_fingerprint_order_invariant_witness :
    (filePairs tC7a).Perm (filePairs tC7b) ∧
    calculate_directory_hash md5c tC7a = calculate_directory_hash md5c tC7b :=
  ⟨by decide,
    c7_shallow_fingerprint_order_invariant md5c tC7a tC7b (by decide) (by decide) (by decide)⟩

/-- C8: once the missing-files check has passed (`missing_files` is empty,
i.e. every original walk path occurs among the extracted walk paths), every
path the comparison loop visits — sampled or not — exists in the extraction,
so the per-path `extracted file not found` branch of the loop can never
fire.  The `sample` hypothesis is the subset half of the `random.sample`
contract, and well-formedness of the extraction tree is sibling-name
uniqueness as on a real filesystem. -/
theorem c8_extracted_exists_after_missing_check
    (sample : List RelPath → List RelPath) (original ext : FS)
    (hs : ∀ l : List RelPath, l.Nodup → ∀ p ∈ sample l, p ∈ l)
    (hwfext : fsWF ext = true)
    (hmiss : missing_files original ext = []) :
    ∀ p ∈ files_to_check sample (original_files original), pathExists ext p = true := by
  intro p hp
  have hpo : p ∈ original_files original := mem_files_to_check sample original hs p hp
  have hpe : p ∈ extracted_files ext := by
    by_contra hne
    have hmem : p ∈ missing_files original ext :=
      List.mem_filter.mpr ⟨hpo, decide_eq_true hne⟩
    rw [hmiss] at hmem
    simp at hmem
  exact mem_walk_pathExists ext hwfext p (List.mem_dedup.mp hpe)

/-- C8, applied concretely: with the one-file original extracted intact,
the compared path exists in the extraction. -/
theorem c8_extracted_exists_witness : pathExists tV ["a"] = true :=
  c8_extracted_exists_after_missing_check samplec tV tV
    (fun l _ p hp => (List.take_sublist 100 l).subset hp) (by decide) (by decide)
    ["a"] (by decide)

/-- C9: `calculate_directory_hash` is total by construction, and a
directory whose listing raises (nonexistent or unreadable path) takes the
`except` branch and returns the digest of the empty stream — the same
digest an empty readable directory produces, so change detection cannot
tell an inaccessible directory from an empty one. -/
theorem c9_unreadable_hash_equals_empty (md5 : Bytes → String) :
    calculate_directory_hash md5 .unreadable = md5 [] ∧
    calculate_directory_hash md5 .empty = md5 [] ∧
    calculate_directory_hash md5 .unreadable = calculate_directory_hash md5 .empty :=
  ⟨rfl, rfl, rfl⟩


/-- C10: the verdict is a function of the regular files alone.  Both walks
enumerate only regular files, so two original trees with identical file
walks and two extractions with identical file walks — e.g. one preserving
empty directories and one omitting them — receive the same verdict, whatever
the validation policy and archive state.  Well-formedness is sibling-name
uniqueness, as on a real filesystem. -/
theorem c10_verdict_depends_only_on_files (md5 : Bytes → String)
    (sample : List RelPath → List RelPath) (dv te : Bool)
    (ext1 ext2 orig1 orig2 : FS)
    (hw1 : fsWF ext1 = true) (hw2 : fsWF ext2 = true)
    (hw3 : fsWF orig1 = true) (hw4 : fsWF orig2 = true)
    (he : walkFiles ext1 = walkFiles ext2) (ho : walkFiles orig1 = walkFiles orig2) :
    validar_backup_completo md5 sample dv te (some ext1) orig1
      = validar_backup_completo md5 sample dv te (some ext2) orig2 := by
  cases dv with
  | false => rfl
  | true =>
    cases te with
    | false => rfl
    | true =>
      have hOF : original_files orig1 = original_files orig2 := by
        rw [original_files, original_files, ho]
      have hEF : extracted_files ext1 = extracted_files ext2 := by
        rw [extracted_files, extracted_files, he]
      have hmiss : missing_files orig1 ext1 = missing_files orig2 ext2 := by
        rw [missing_files, missing_files, hOF, hEF]
      rw [validar_main_eq, validar_main_eq, hmiss, hOF]
      by_cases hm : missing_files orig2 ext2 ≠ []
      · rw [if_pos hm, if_pos hm]
      · rw [if_neg hm, if_neg hm]
        apply all_congr_mem
        intro p _
        have hco : fileContent orig1 p = fileContent orig2 p := by
          rw [fileContent_eq_walkLookup orig1 hw3, fileContent_eq_walkLookup orig2 hw4, ho]
        have hce : fileContent ext1 p = fileContent ext2 p := by
          rw [fileContent_eq_walkLookup ext1 hw1, fileContent_eq_walkLookup ext2 hw2, he]
        cases hfc : fileContent ext1 p with
        | some c =>
          have hfc2 : fileContent ext2 p = some c := by rw [← hce]; exact hfc
          have hpe1 : pathExists ext1 p = true := fileContent_pathExists p ext1 c hfc
          have hpe2 : pathExists ext2 p = true := fileContent_pathExists p ext2 c hfc2
          simp [checkOne, hpe1, hpe2, hfc, hfc2, hco]
        | none =>
          have hfc2 : fileContent ext2 p = none := by rw [← hce]; exact hfc
          cases hfo1 : fileContent orig1 p <;> cases hfo2 : fileContent orig2 p <;>
            simp [checkOne, hfc, hfc2, hfo1, hfo2]

/-- C10, applied concretely: an extraction carrying an extra empty
directory gets the same verdict as one without it. -/
theorem c10_verdict_depends_only_on_files_witness :
    walkFiles tC10a = walkFiles tV ∧
    validar_backup_completo md5c samplec true true (some tC10a) tV
      = validar_backup_completo md5c samplec true true (some tV) tV :=
  ⟨by decide,
    c10_verdict_depends_only_on_files md5c samplec true true tC10a tV tV tV
      (by decide) (by decide) (by decide) (by decide) (by decide) (by decide)⟩

end Backup
